import Mathlib

/-!
Verification development for the telgo telnet server library.

Shallow embedding of the protocol framing (scanLines, dropIAC, dropCR,
handleIac), the output escaping (WriteString), the command-line tokenizer
(splitCmdArguments, stripEscapeChars) and the per-connection session loop
(the busy/idle state machine of Client.handle and the single-slot
cancellation flag).

Modelling conventions:
- Go bytes are natural numbers, Go byte slices are List Nat.
- Go strings handled rune-wise by the tokenizer are List Char.
- Channel sends are modelled as values appended to explicit output lists.
- handleIac in the source mutates the command byte of an already-dispatched
  sequence in place (251/252 become 254, 253/254 become 252) before pushing
  the slice on the iacout channel.  The mutation rewrites only bytes that
  are skipped as command bytes by every later scan (their lookup length is
  unchanged: all four negotiation bytes map to length 3) and never writes
  or overwrites the byte values 4, 10 or 255, so the byte search indices
  and the cleaned tokens of all later calls are unaffected.  The embedding
  is therefore pure: handleIac returns the reply message and the buffer is
  left unchanged.
-/

namespace Telgo

/-- Telnet protocol constants of the source (EOT, IAC and friends). -/
def bEOT : Nat := 4

def bIAC : Nat := 255

def bDONT : Nat := 254

def bDO : Nat := 253

def bWONT : Nat := 252

def bWILL : Nat := 251

def bIP : Nat := 244

/-- Length field of the telnetCmds lookup table: the four negotiation
commands DONT 254, DO 253, WONT 252, WILL 251 have length 3; the 2-byte
commands SE (240) up to SB (250) have length 2; any other byte is not in
the table. -/
def telnetCmds (c : Nat) : Option Nat :=
  if 251 ≤ c ∧ c ≤ 254 then some 3
  else if 240 ≤ c ∧ c ≤ 250 then some 2
  else none

/-- Command length used by scanLines and dropIAC: the table value, with the
default 2 when the command byte is not in the table. -/
def cmdLen (c : Nat) : Nat := (telnetCmds c).getD 2

theorem cmdLen_ge_two (c : Nat) : 2 ≤ cmdLen c := by
  by_cases h1 : 251 ≤ c ∧ c ≤ 254
  · simp [cmdLen, telnetCmds, h1]
  · by_cases h2 : 240 ≤ c ∧ c ≤ 250
    · simp [cmdLen, telnetCmds, h1, h2]
    · simp [cmdLen, telnetCmds, h1, h2]

theorem cmdLen_le_three (c : Nat) : cmdLen c ≤ 3 := by
  by_cases h1 : 251 ≤ c ∧ c ≤ 254
  · simp [cmdLen, telnetCmds, h1]
  · by_cases h2 : 240 ≤ c ∧ c ≤ 250
    · simp [cmdLen, telnetCmds, h1, h2]
    · simp [cmdLen, telnetCmds, h1, h2]

/-- dropCR removes the carriage return at the end of the line. -/
def dropCR (data : List Nat) : List Nat :=
  if data.getLast? = some 13 then data.dropLast else data

/-- dropIAC removes all telnet command sequences that are still on the read
buffer; an escaped IAC (byte 255 doubled) is kept as one literal 255 byte.
When an IAC is found but the rest of the buffer is too short to hold the
complete command, the bytes from the IAC on are discarded (the source
returns the token collected so far). -/
def dropIAC : List Nat → List Nat
  | [] => []
  | b :: rest =>
    if b = 255 then
      match rest with
      | [] => []
      | c :: rest2 =>
        if cmdLen c = 3 then
          match rest2 with
          | [] => []
          | _ :: rest3 => dropIAC rest3
        else if c = 255 then 255 :: dropIAC rest2
        else dropIAC rest2
    else b :: dropIAC rest

theorem dropIAC_nil : dropIAC [] = [] := rfl

theorem dropIAC_cons_ne (b : Nat) (rest : List Nat) (hb : b ≠ 255) :
    dropIAC (b :: rest) = b :: dropIAC rest := by
  rw [dropIAC.eq_def]
  simp [hb]

theorem dropIAC_escaped (rest : List Nat) :
    dropIAC (255 :: 255 :: rest) = 255 :: dropIAC rest := by
  rw [dropIAC.eq_def]
  simp [cmdLen, telnetCmds]

/-- handleIac decides the out-of-band reaction to one fully buffered telnet
command sequence: WILL/WONT proposals are answered with DONT, DO/DONT
requests with WONT, the interrupt command IP is passed through unchanged,
and an escaped IAC or any other command produces no message. -/
def handleIac (iac : List Nat) : Option (List Nat) :=
  match iac with
  | a :: c :: rest =>
    if c = 251 ∨ c = 252 then some (a :: 254 :: rest)
    else if c = 253 ∨ c = 254 then some (a :: 252 :: rest)
    else if c = 244 then some (a :: c :: rest)
    else none
  | _ => none

/-- WriteString escaping: the bytes put on the stdout channel for a text,
with every literal IAC byte 255 replaced by the two bytes 255 255
(bytes.Replace of the source). -/
def WriteString : List Nat → List Nat
  | [] => []
  | b :: rest => if b = 255 then 255 :: 255 :: WriteString rest else b :: WriteString rest

/-- Whether a byte list contains two adjacent 255 bytes (an escaped IAC). -/
def hasDoubledIAC : List Nat → Bool
  | a :: b :: rest => (a = 255 && b = 255) || hasDoubledIAC (b :: rest)
  | _ => false

theorem cmdLen_255 : cmdLen 255 = 2 := by decide

/-- Every byte of the wire form of a WriteString text that equals 255 comes
from a doubled IAC, so the IAC count doubles. -/
theorem writeString_count (s : List Nat) :
    (WriteString s).count 255 = 2 * s.count 255 := by
  induction s with
  | nil => simp [WriteString]
  | cons b rest ih =>
    by_cases hb : b = 255
    · subst hb
      simp [WriteString, List.count_cons, ih]
      ring
    · simp [WriteString, hb, List.count_cons, ih]

/-- C4.  Control-byte escaping round-trip: every literal IAC byte of a text
written through WriteString is doubled on the wire (the 255 count doubles),
and the cleanup step dropIAC of the scanner restores the doubled bytes to
single literal IAC bytes, recovering the original text. -/
theorem c4_writeString_roundtrip (s : List Nat) :
    dropIAC (WriteString s) = s ∧ (WriteString s).count 255 = 2 * s.count 255 := by
  refine ⟨?_, writeString_count s⟩
  induction s with
  | nil => rfl
  | cons b rest ih =>
    by_cases hb : b = 255
    · subst hb
      rw [WriteString, if_pos rfl, dropIAC_escaped, ih]
    · rw [WriteString, if_neg hb, dropIAC_cons_ne b _ hb, ih]

/-! ### Command-line tokenizer (splitCmdArguments and helpers) -/

/-- goIsSpace models unicode.IsSpace: the Unicode White_Space code points. -/
def goIsSpace (c : Char) : Bool :=
  c.toNat = 32 || c.toNat = 9 || c.toNat = 10 || c.toNat = 11 || c.toNat = 12 ||
  c.toNat = 13 || c.toNat = 133 || c.toNat = 160 || c.toNat = 5760 ||
  (8192 ≤ c.toNat && c.toNat ≤ 8202) || c.toNat = 8232 || c.toNat = 8233 ||
  c.toNat = 8239 || c.toNat = 8287 || c.toNat = 12288

/-- Separator set outside of quotes: whitespace or a double quote. -/
def spacesAndQuotes (c : Char) : Bool := goIsSpace c || c == '"'

/-- Separator set inside of quotes: a backslash or a double quote. -/
def backslashAndQuotes (c : Char) : Bool := c == '\\' || c == '"'

/-- replEscapeChars maps the character after a backslash to its replacement:
the C-style control characters for a b t n v f r, any other character is
kept literally. -/
def replEscapeChars (c : Char) : Char :=
  if c = 'a' then Char.ofNat 7
  else if c = 'b' then Char.ofNat 8
  else if c = 't' then Char.ofNat 9
  else if c = 'n' then Char.ofNat 10
  else if c = 'v' then Char.ofNat 11
  else if c = 'f' then Char.ofNat 12
  else if c = 'r' then Char.ofNat 13
  else c

/-- stripEscapeChars replaces every match of the regular expression of a
backslash followed by any character except a newline (the dot of the Go
regexp does not match a newline) by replEscapeChars of that character. -/
def stripEscapeChars : List Char → List Char
  | [] => []
  | [c] => [c]
  | c :: d :: rest =>
    if c = '\\' then
      if d = Char.ofNat 10 then c :: stripEscapeChars (d :: rest)
      else replEscapeChars d :: stripEscapeChars rest
    else c :: stripEscapeChars (d :: rest)

/-- The three syntax errors of splitCmdArguments. -/
inductive SplitErr
  | missingClosingQuote
  | missingSpaceAfterQuote
  | soleBackslash
deriving DecidableEq

/-- Result of splitCmdArguments: the token list or a syntax error.  When
the source returns a non-nil error together with partially collected
tokens, only the error is observable to the caller (handleCmd checks err
first), so the error constructor carries no tokens. -/
inductive SplitRes
  | ok (cmds : List (List Char))
  | err (e : SplitErr)
deriving DecidableEq

/-- The loop of splitCmdArguments.  State: collected tokens, whether a
quote is open (which also selects the separator function, as both are
always updated together in the source), the search offset lastesc and the
remaining command string.  The source loops forever when the separator hit
by IndexFunc is a whitespace character other than a tab or a blank (no
switch case matches and the state is unchanged), hence the fuel; running
out of fuel models that divergence as none. -/
def splitLoop (fuel : Nat) (cmds : List (List Char)) (foundQuote : Bool) (lastesc : Nat)
    (cmdstr : List Char) : Option SplitRes :=
  match fuel with
  | 0 => none
  | fuel + 1 =>
    match (cmdstr.drop lastesc).findIdx?
        (fun c => if foundQuote then backslashAndQuotes c else spacesAndQuotes c) with
    | none =>
      if foundQuote then some (.err .missingClosingQuote)
      else if 0 < cmdstr.length then some (.ok (cmds ++ [cmdstr]))
      else some (.ok cmds)
    | some i0 =>
      let i := i0 + lastesc
      let ch := cmdstr.getD i ' '
      if ch = '\t' ∨ ch = ' ' then
        splitLoop fuel (if 0 < i then cmds ++ [cmdstr.take i] else cmds) foundQuote 0
          (cmdstr.drop (i + 1))
      else if ch = '"' then
        if foundQuote then
          if cmdstr.length = i + 1 then some (.ok (cmds ++ [stripEscapeChars (cmdstr.take i)]))
          else if goIsSpace (cmdstr.getD (i + 1) ' ') then
            splitLoop fuel (cmds ++ [stripEscapeChars (cmdstr.take i)]) false 0
              (cmdstr.drop (i + 1))
          else some (.err .missingSpaceAfterQuote)
        else splitLoop fuel cmds true 0 (cmdstr.drop (i + 1))
      else if ch = '\\' then
        if cmdstr.length < i + 2 then some (.err .soleBackslash)
        else splitLoop fuel cmds foundQuote (i + 2) cmdstr
      else
        splitLoop fuel cmds foundQuote lastesc cmdstr

/-- splitCmdArguments splits a command line into argument tokens. -/
def splitCmdArguments (fuel : Nat) (cmdstr : List Char) : Option SplitRes :=
  splitLoop fuel [] false 0 cmdstr

/-- C7, counterexample.  The claim says tokenizing the concrete line of the
spec yields the three tokens echo, a b, c d; on the code a backslash
outside of quotes is not a separator and not an escape (the backslash case
of the switch is reachable only with the in-quote separator function), so
the line splits at the blank into the tokens c-backslash and d. -/
theorem c7_counterexample :
    splitCmdArguments 32 ("echo \"a b\" c\\ d".toList) ≠
      some (SplitRes.ok ["echo".toList, "a b".toList, "c d".toList]) := by
  decide

/-- C7, amended.  Tokenizing the line of the spec succeeds but yields the
four tokens echo, a b, c-backslash, d: outside of quotes a backslash is an
ordinary character and does not escape the following blank. -/
theorem c7_amended :
    splitCmdArguments 32 ("echo \"a b\" c\\ d".toList) =
      some (SplitRes.ok ["echo".toList, "a b".toList, "c\\".toList, "d".toList]) := by
  decide

/-- C8, counterexample.  A line that ends in a lone backslash outside of
any quote does not fail: the backslash is not in the out-of-quote separator
set, so IndexFunc never finds it and the whole word is returned as a token. -/
theorem c8_counterexample :
    splitCmdArguments 8 ("abc\\".toList) = some (SplitRes.ok ["abc\\".toList]) := by
  decide

theorem findIdx?_all_false_append {p : Char → Bool} {s : List Char} (t : List Char)
    (h : ∀ c ∈ s, p c = false) :
    (s ++ t).findIdx? p = (t.findIdx? p).map (· + s.length) := by
  induction s with
  | nil => simp
  | cons a s ih =>
    have ha : p a = false := h a (by simp)
    have hs : ∀ c ∈ s, p c = false := fun c hc => h c (by simp [hc])
    simp [List.findIdx?_cons, ha, ih hs, Option.map_map]

/-- C8, amended.  A trailing lone backslash fails with the sole-backslash
syntax error when it occurs inside an open quoted token (the in-quote
separator function finds it and the remaining string is too short for an
escape pair); outside of quotes a trailing backslash is an ordinary
character, see the counterexample. -/
theorem c8_amended (fuel : Nat) (s : List Char) (hfuel : 2 ≤ fuel)
    (hs : ∀ c ∈ s, c ≠ '"' ∧ c ≠ '\\') :
    splitCmdArguments fuel ('"' :: (s ++ ['\\'])) = some (SplitRes.err SplitErr.soleBackslash) := by
  obtain ⟨fuel, rfl⟩ : ∃ k, fuel = k + 2 := ⟨fuel - 2, by omega⟩
  unfold splitCmdArguments splitLoop
  have h0 : spacesAndQuotes '"' = true := by decide
  simp [List.findIdx?_cons, h0]
  have hfa : ∀ c ∈ s, backslashAndQuotes c = false := by
    intro c hc
    obtain ⟨h1, h2⟩ := hs c hc
    simp [backslashAndQuotes, h1, h2]
  have hfi : (s ++ ['\\']).findIdx? backslashAndQuotes = some s.length := by
    rw [findIdx?_all_false_append _ hfa]
    simp [List.findIdx?_cons, backslashAndQuotes]
  have hget : (s ++ ['\\']).getD s.length ' ' = '\\' := by
    rw [List.getD_append_right _ _ _ _ (le_refl _)]
    simp
  unfold splitLoop
  simp [hfi, hget]

/-- C8 witness: the amended theorem applied at fuel 8 and the in-quote
string abc. -/
theorem c8_witness :
    2 ≤ 8 ∧ (∀ c ∈ ("abc".toList), c ≠ '"' ∧ c ≠ '\\') ∧
      splitCmdArguments 8 ('"' :: ("abc".toList ++ ['\\'])) =
        some (SplitRes.err SplitErr.soleBackslash) :=
  ⟨by decide, by decide, c8_amended 8 ("abc".toList) (by decide) (by decide)⟩

/-! ### Session state machine (Client.handle) -/

/-- Events received by the select loop of Client.handle: a line from the
reader (the in channel), the closing of the in channel (Ctrl-D or a
receive error), or the completion of the running command handler with its
exit flag (the done channel). -/
inductive HEvent
  | line (cmd : List Char)
  | closed
  | done (exit : Bool)
deriving DecidableEq

/-- Observable actions of the loop: spawning a command handler for a line
(go handleCmd) and writing the prompt. -/
inductive HAct
  | spawn (cmd : List Char)
  | prompt
deriving DecidableEq

/-- One iteration of the select loop of Client.handle: the new busy flag
(none when the loop returns and the session closes) and the actions taken.
While busy, everything received on the in channel is ignored. -/
def handleStep (busy : Bool) : HEvent → Option Bool × List HAct
  | .line cmd =>
    if busy then (some busy, [])
    else if 0 < cmd.length then (some true, [.spawn cmd])
    else (some false, [.prompt])
  | .closed => (none, [])
  | .done exit => if exit then (none, []) else (some false, [.prompt])

/-- Folding the select loop over a serialized event list, stopping when the
loop returns. -/
def handleRun (busy : Bool) : List HEvent → List HAct
  | [] => []
  | e :: es =>
    match handleStep busy e with
    | (some b2, acts) => acts ++ handleRun b2 es
    | (none, acts) => acts

/-- C6.  While a session is busy, an incoming line causes no handler
invocation, no output and no queued execution (the step yields no action
and leaves the state unchanged); hence two back-to-back command lines
while the first handler is still running result in exactly one spawn. -/
theorem c6_busy_drop (c1 c2 : List Char) (es : List HEvent) (h1 : 0 < c1.length) :
    handleStep true (HEvent.line c2) = (some true, []) ∧
    handleRun false (HEvent.line c1 :: HEvent.line c2 :: es) =
      HAct.spawn c1 :: handleRun true es := by
  refine ⟨rfl, ?_⟩
  simp [handleRun, handleStep, h1]

/-- C6 witness: the theorem applied to the concrete lines r and q with no
further events: only one spawn results. -/
theorem c6_witness :
    0 < (['r'] : List Char).length ∧
    handleStep true (HEvent.line ['q']) = (some true, []) ∧
    handleRun false (HEvent.line ['r'] :: HEvent.line ['q'] :: []) = [HAct.spawn ['r']] := by
  refine ⟨by decide, ?_, ?_⟩
  · exact (c6_busy_drop ['r'] ['q'] [] (by decide)).1
  · rw [(c6_busy_drop ['r'] ['q'] [] (by decide)).2]
    rfl

/-! ### Cancellation flag (the Cancel channel) -/

/-- The Cancel channel of a client: a capacity-1 channel of booleans, so a
single-slot flag; full is true when a signal is pending. -/
structure CancelChan where
  full : Bool
deriving DecidableEq

/-- Client.cancel: non-blocking send of true on the Cancel channel; when
the slot is already full the send is dropped (the default case of the
select). -/
def cancel (ch : CancelChan) : CancelChan :=
  if ch.full then ch else ⟨true⟩

/-- Non-blocking receive on the Cancel channel, as done by a polling
handler: whether a signal was pending, leaving the slot empty. -/
def tryRecvCancel (ch : CancelChan) : Bool × CancelChan :=
  (ch.full, ⟨false⟩)

/-- The drain at the start of Client.handleCmd: consume a potentially
pending cancel request before dispatching the command. -/
def handleCmdDrain (ch : CancelChan) : CancelChan := (tryRecvCancel ch).2

theorem cancel_eq_full (ch : CancelChan) : cancel ch = ⟨true⟩ := by
  cases ch with
  | mk f => cases f <;> simp [cancel]

/-- C9.  The cancellation signal is a single-slot non-blocking flag:
raising it any positive number of times leaves exactly one pending signal,
a handler poll observes it set at most once until consumed (the second
poll sees it unset), and handleCmd clears the slot at its start so a stale
interrupt never leaks into the next command. -/
theorem c9_cancel_single_slot (n : Nat) (ch : CancelChan) :
    cancel^[n + 1] ch = ⟨true⟩ ∧
    tryRecvCancel (cancel^[n + 1] ch) = (true, ⟨false⟩) ∧
    (tryRecvCancel (tryRecvCancel (cancel^[n + 1] ch)).2).1 = false ∧
    handleCmdDrain ch = ⟨false⟩ := by
  have hiter : cancel^[n + 1] ch = ⟨true⟩ := by
    induction n with
    | zero => simpa using cancel_eq_full ch
    | succ m ih =>
      rw [Function.iterate_succ_apply]
      rw [cancel_eq_full ch]
      have : cancel^[m + 1] (⟨true⟩ : CancelChan) = ⟨true⟩ := by
        rw [Function.iterate_succ_apply, cancel_eq_full]
        clear ih
        induction m with
        | zero => rfl
        | succ k ihk => rw [Function.iterate_succ_apply, cancel_eq_full]; exact ihk
      rw [Function.iterate_succ_apply, cancel_eq_full]
      exact this
  refine ⟨hiter, ?_, ?_, rfl⟩
  · rw [hiter]; rfl
  · rw [hiter]; rfl

/-! ### Frame scanner (scanLines) -/

/-- First index of a byte in a list (bytes.IndexByte), none instead of -1. -/
def idxOf : List Nat → Nat → Option Nat
  | [], _ => none
  | x :: xs, b => if x = b then some 0 else (idxOf xs b).map (· + 1)

/-- First index of a byte at or after position k (the search of the next
IAC in scanLines restarts at the carried index and the relative result is
shifted back to an absolute index). -/
def idxFrom (data : List Nat) (b k : Nat) : Option Nat :=
  (idxOf (data.drop k) b).map (· + k)

theorem idxOf_some_bounds {d : List Nat} {b n : Nat} (h : idxOf d b = some n) :
    n < d.length ∧ d.getD n 0 = b := by
  induction d generalizing n with
  | nil => simp [idxOf] at h
  | cons x xs ih =>
    by_cases hx : x = b
    · simp [idxOf, hx] at h
      subst h
      simp [hx]
    · simp [idxOf, hx] at h
      obtain ⟨m, hm, rfl⟩ := h
      obtain ⟨h1, h2⟩ := ih hm
      constructor
      · simpa using h1
      · simpa using h2

theorem idxFrom_some_bounds {d : List Nat} {b k p : Nat} (h : idxFrom d b k = some p) :
    k ≤ p ∧ p < d.length ∧ d.getD p 0 = b := by
  simp [idxFrom] at h
  obtain ⟨m, hm, rfl⟩ := h
  obtain ⟨h1, h2⟩ := idxOf_some_bounds hm
  refine ⟨by omega, ?_, ?_⟩
  · have := d.length_drop k
    omega
  · have hk : k ≤ d.length := by
      by_contra hk
      push_neg at hk
      rw [List.drop_eq_nil_of_le (by omega)] at hm
      simp [idxOf] at hm
    rw [List.getD_eq_getElem?_getD] at h2 ⊢
    rw [List.getElem?_drop] at h2
    rw [Nat.add_comm] at h2
    exact h2

/-- Index comparison of compareIdx: a strictly before b, where a missing
index (-1 in the source) counts as the highest possible index. -/
def idxLt : Option Nat → Option Nat → Bool
  | none, _ => false
  | some _, none => true
  | some a, some b => decide (a < b)

/-- The first condition of the scan loop: a newline was found and it comes
strictly before the first EOT and before the next unprocessed IAC. -/
def lineWins (inl ieot niiac : Option Nat) : Option Nat :=
  match inl with
  | some n => if idxLt (some n) ieot && idxLt (some n) niiac then some n else none
  | none => none

/-- The second condition of the scan loop: an EOT was found and it comes
strictly before the next unprocessed IAC. -/
def eotWins (ieot niiac : Option Nat) : Option Nat :=
  match ieot with
  | some e => if idxLt (some e) niiac then some e else none
  | none => none

/-- Result of one scanLines call: the bufio split contract (advance and
token, where a missing token with advance 0 means more data is needed)
together with the messages sent to the iacout channel during the call and
the value of the carried lastiiac index after the call. -/
structure ScanOut where
  advance : Nat
  token : Option (List Nat)
  oob : List (List Nat)
  last : Nat
deriving DecidableEq

/-- Collect an optional out-of-band message (channel send of handleIac). -/
def pushMsg : Option (List Nat) → List (List Nat) → List (List Nat)
  | some m, acc => m :: acc
  | none, acc => acc

/-- The loop of scanLines.  inl and ieot are the indices of the first
newline and the first EOT of the buffer, iiac the current scan position
for IAC bytes (it both starts the search and is the stored lastiiac: the
two agree at every loop entry, since each dispatch updates both to the
same value).  On each iteration the next IAC at or after iiac is looked
up; a newline before EOT and IAC yields a cleaned line token, an EOT
before the IAC yields the one-byte EOT token, an incomplete trailing
command yields need-more-data, a complete command is dispatched through
handleIac and the loop continues after it, and when nothing is found the
remaining bytes are the final line at EOF or more data is needed. -/
def scanLoop (data : List Nat) (atEOF : Bool) (inl ieot : Option Nat) (iiac : Nat)
    (acc : List (List Nat)) : ScanOut :=
  match hni : idxFrom data 255 iiac with
  | some p =>
    match lineWins inl ieot (some p), eotWins ieot (some p) with
    | some n, _ => ⟨n + 1, some (dropIAC (dropCR (data.take n))), acc.reverse, 0⟩
    | none, some e => ⟨e + 1, some ((data.drop e).take 1), acc.reverse, 0⟩
    | none, none =>
      if data.length < p + 2 then ⟨0, none, acc.reverse, iiac⟩
      else if data.length < p + cmdLen (data.getD (p + 1) 0) then ⟨0, none, acc.reverse, iiac⟩
      else
        scanLoop data atEOF inl ieot (p + cmdLen (data.getD (p + 1) 0))
          (pushMsg (handleIac ((data.drop p).take (cmdLen (data.getD (p + 1) 0)))) acc)
  | none =>
    match lineWins inl ieot none, eotWins ieot none with
    | some n, _ => ⟨n + 1, some (dropIAC (dropCR (data.take n))), acc.reverse, 0⟩
    | none, some e => ⟨e + 1, some ((data.drop e).take 1), acc.reverse, 0⟩
    | none, none =>
      if atEOF then ⟨data.length, some (dropCR data), acc.reverse, iiac⟩
      else ⟨0, none, acc.reverse, iiac⟩
termination_by data.length + 1 - iiac
decreasing_by
  obtain ⟨hk, hlen, _⟩ := idxFrom_some_bounds hni
  have h2 := cmdLen_ge_two (data.getD (p + 1) 0)
  omega

/-- scanLines: the split function handed to the bufio scanner, with the
iacout sends and the lastiiac state made explicit. -/
def scanLines (data : List Nat) (atEOF : Bool) (lastiiac : Nat) : ScanOut :=
  if atEOF ∧ data.length = 0 then ⟨0, none, [], lastiiac⟩
  else scanLoop data atEOF (idxOf data 10) (idxOf data 4) lastiiac []

theorem scanLoop_eq_line {data : List Nat} {a : Bool} {inl ieot : Option Nat} {ii : Nat}
    (acc : List (List Nat)) {ni : Option Nat} {n : Nat}
    (hni : idxFrom data 255 ii = ni) (hlw : lineWins inl ieot ni = some n) :
    scanLoop data a inl ieot ii acc = ⟨n + 1, some (dropIAC (dropCR (data.take n))), acc.reverse, 0⟩ := by
  rw [scanLoop.eq_def]
  split
  · rename_i p2 hp2
    rw [hni] at hp2
    subst hp2
    simp [hlw]
  · rename_i hp2
    rw [hni] at hp2
    subst hp2
    simp [hlw]

theorem scanLoop_eq_eot {data : List Nat} {a : Bool} {inl ieot : Option Nat} {ii : Nat}
    (acc : List (List Nat)) {ni : Option Nat} {e : Nat}
    (hni : idxFrom data 255 ii = ni) (hlw : lineWins inl ieot ni = none)
    (hew : eotWins ieot ni = some e) :
    scanLoop data a inl ieot ii acc = ⟨e + 1, some ((data.drop e).take 1), acc.reverse, 0⟩ := by
  rw [scanLoop.eq_def]
  split
  · rename_i p2 hp2
    rw [hni] at hp2
    subst hp2
    simp [hlw, hew]
  · rename_i hp2
    rw [hni] at hp2
    subst hp2
    simp [hlw, hew]

theorem scanLoop_eq_short {data : List Nat} {a : Bool} {inl ieot : Option Nat} {ii : Nat}
    (acc : List (List Nat)) {p : Nat}
    (hni : idxFrom data 255 ii = some p) (hlw : lineWins inl ieot (some p) = none)
    (hew : eotWins ieot (some p) = none) (hs : data.length < p + 2) :
    scanLoop data a inl ieot ii acc = ⟨0, none, acc.reverse, ii⟩ := by
  rw [scanLoop.eq_def]
  split
  · rename_i p2 hp2
    rw [hni] at hp2
    cases hp2
    simp [hlw, hew, hs]
  · rename_i hp2
    rw [hni] at hp2
    cases hp2

theorem scanLoop_eq_short2 {data : List Nat} {a : Bool} {inl ieot : Option Nat} {ii : Nat}
    (acc : List (List Nat)) {p : Nat}
    (hni : idxFrom data 255 ii = some p) (hlw : lineWins inl ieot (some p) = none)
    (hew : eotWins ieot (some p) = none) (hs : ¬data.length < p + 2)
    (hs2 : data.length < p + cmdLen (data.getD (p + 1) 0)) :
    scanLoop data a inl ieot ii acc = ⟨0, none, acc.reverse, ii⟩ := by
  rw [scanLoop.eq_def]
  split
  · rename_i p2 hp2
    rw [hni] at hp2
    cases hp2
    simp only [hlw, hew]
    rw [if_neg hs, if_pos hs2]
  · rename_i hp2
    rw [hni] at hp2
    cases hp2

theorem scanLoop_eq_dispatch {data : List Nat} {a : Bool} {inl ieot : Option Nat} {ii : Nat}
    (acc : List (List Nat)) {p : Nat}
    (hni : idxFrom data 255 ii = some p) (hlw : lineWins inl ieot (some p) = none)
    (hew : eotWins ieot (some p) = none) (hs : ¬data.length < p + 2)
    (hs2 : ¬data.length < p + cmdLen (data.getD (p + 1) 0)) :
    scanLoop data a inl ieot ii acc =
      scanLoop data a inl ieot (p + cmdLen (data.getD (p + 1) 0))
        (pushMsg (handleIac ((data.drop p).take (cmdLen (data.getD (p + 1) 0)))) acc) := by
  conv =>
    lhs
    rw [scanLoop.eq_def]
  split
  · rename_i p2 hp2
    rw [hni] at hp2
    cases hp2
    simp only [hlw, hew]
    rw [if_neg hs, if_neg hs2]
  · rename_i hp2
    rw [hni] at hp2
    cases hp2

theorem scanLoop_eq_eof {data : List Nat} {inl ieot : Option Nat} {ii : Nat}
    (acc : List (List Nat))
    (hni : idxFrom data 255 ii = none) (hlw : lineWins inl ieot none = none)
    (hew : eotWins ieot none = none) :
    scanLoop data true inl ieot ii acc = ⟨data.length, some (dropCR data), acc.reverse, ii⟩ := by
  rw [scanLoop.eq_def]
  split
  · rename_i p2 hp2
    rw [hni] at hp2
    cases hp2
  · rename_i hp2
    simp [hlw, hew]

theorem scanLoop_eq_more {data : List Nat} {inl ieot : Option Nat} {ii : Nat}
    (acc : List (List Nat))
    (hni : idxFrom data 255 ii = none) (hlw : lineWins inl ieot none = none)
    (hew : eotWins ieot none = none) :
    scanLoop data false inl ieot ii acc = ⟨0, none, acc.reverse, ii⟩ := by
  rw [scanLoop.eq_def]
  split
  · rename_i p2 hp2
    rw [hni] at hp2
    cases hp2
  · rename_i hp2
    simp [hlw, hew]

theorem lineWins_eq_some {inl ieot ni : Option Nat} {n : Nat}
    (h : lineWins inl ieot ni = some n) : inl = some n := by
  cases inl with
  | none => simp [lineWins] at h
  | some m =>
    simp [lineWins] at h
    simp_all

theorem eotWins_eq_some {ieot ni : Option Nat} {e : Nat}
    (h : eotWins ieot ni = some e) : ieot = some e := by
  cases ieot with
  | none => simp [eotWins] at h
  | some m =>
    simp [eotWins] at h
    simp_all

theorem scanLines_eq_loop (data : List Nat) (k : Nat) :
    scanLines data false k = scanLoop data false (idxOf data 10) (idxOf data 4) k [] := by
  simp [scanLines]

/-- Shape of every token produced by the scan loop: a cleaned line (the
newline branch), the one-byte slice at the first EOT (the EOT branch), or
the CR-stripped remaining buffer (the final line at EOF). -/
theorem scanLoop_token_cases {data : List Nat} {a : Bool} {inl ieot : Option Nat} {ii : Nat}
    {acc : List (List Nat)} {t : List Nat}
    (ht : (scanLoop data a inl ieot ii acc).token = some t) :
    (∃ n, inl = some n ∧ (scanLoop data a inl ieot ii acc).advance = n + 1 ∧
      t = dropIAC (dropCR (data.take n))) ∨
    (∃ e, ieot = some e ∧ (scanLoop data a inl ieot ii acc).advance = e + 1 ∧
      t = (data.drop e).take 1) ∨
    (a = true ∧ (scanLoop data a inl ieot ii acc).advance = data.length ∧ t = dropCR data) := by
  induction ii, acc using scanLoop.induct data a inl ieot with
  | case1 ii acc p hni n hwin =>
    rw [scanLoop_eq_line acc hni hwin] at ht ⊢
    simp at ht
    exact Or.inl ⟨n, lineWins_eq_some hwin, rfl, ht.symm⟩
  | case2 ii acc p hni e hwin hlw =>
    rw [scanLoop_eq_eot acc hni hlw hwin] at ht ⊢
    simp at ht
    exact Or.inr (Or.inl ⟨e, eotWins_eq_some hwin, rfl, ht.symm⟩)
  | case3 ii acc p hni hew hlw hs =>
    rw [scanLoop_eq_short acc hni hlw hew hs] at ht
    simp at ht
  | case4 ii acc p hni hew hlw hs hs2 =>
    rw [scanLoop_eq_short2 acc hni hlw hew hs hs2] at ht
    simp at ht
  | case5 ii acc p hni hew hlw hs hs2 ih =>
    rw [scanLoop_eq_dispatch acc hni hlw hew hs hs2] at ht ⊢
    exact ih ht
  | case6 ii acc hni n hwin =>
    rw [scanLoop_eq_line acc hni hwin] at ht ⊢
    simp at ht
    exact Or.inl ⟨n, lineWins_eq_some hwin, rfl, ht.symm⟩
  | case7 ii acc hni e hwin hlw =>
    rw [scanLoop_eq_eot acc hni hlw hwin] at ht ⊢
    simp at ht
    exact Or.inr (Or.inl ⟨e, eotWins_eq_some hwin, rfl, ht.symm⟩)
  | case8 ii acc hni hew hlw haE =>
    subst haE
    rw [scanLoop_eq_eof acc hni hlw hew] at ht ⊢
    simp at ht
    exact Or.inr (Or.inr ⟨rfl, rfl, ht.symm⟩)
  | case9 ii acc hni hew hlw haE =>
    rw [Bool.not_eq_true] at haE
    subst haE
    rw [scanLoop_eq_more acc hni hlw hew] at ht
    simp at ht

theorem hasDoubled_tail {a : Nat} {l : List Nat} (h : hasDoubledIAC (a :: l) = false) :
    hasDoubledIAC l = false := by
  cases l with
  | nil => rfl
  | cons b t =>
    simp [hasDoubledIAC] at h
    simp [h.2]

theorem hasDoubled_append_left {x y : List Nat} (h : hasDoubledIAC (x ++ y) = false) :
    hasDoubledIAC x = false := by
  induction x with
  | nil => rfl
  | cons a x ih =>
    cases x with
    | nil => rfl
    | cons b t =>
      simp only [List.cons_append] at h
      simp only [hasDoubledIAC, Bool.or_eq_false_iff] at h ⊢
      exact ⟨h.1, ih h.2⟩

theorem hasDoubled_take {l : List Nat} (n : Nat) (h : hasDoubledIAC l = false) :
    hasDoubledIAC (l.take n) = false := by
  apply hasDoubled_append_left (y := l.drop n)
  rw [List.take_append_drop]
  exact h

theorem hasDoubled_dropCR {l : List Nat} (h : hasDoubledIAC l = false) :
    hasDoubledIAC (dropCR l) = false := by
  unfold dropCR
  split
  · rw [List.dropLast_eq_take]
    exact hasDoubled_take _ h
  · exact h

theorem noDoubled_dropIAC (d : List Nat) :
    hasDoubledIAC d = false → (255 : Nat) ∉ dropIAC d := by
  induction d using dropIAC.induct with
  | case1 =>
    intro h
    simp [dropIAC]
  | case2 =>
    intro h
    rw [dropIAC.eq_def]
    simp
  | case3 head h3 =>
    intro h
    rw [dropIAC.eq_def]
    simp [h3]
  | case4 head h3 head1 rest3 ih =>
    intro h
    rw [dropIAC.eq_def]
    simp only [if_pos rfl, h3, if_pos rfl]
    exact ih (hasDoubled_tail (hasDoubled_tail (hasDoubled_tail h)))
  | case5 rest3 h3 ih =>
    intro h
    simp [hasDoubledIAC] at h
  | case6 head rest3 h3 hne ih =>
    intro h
    rw [dropIAC.eq_def]
    simp only [if_pos rfl, if_neg h3, if_neg hne]
    exact ih (hasDoubled_tail (hasDoubled_tail h))
  | case7 head rest3 hne ih =>
    intro h
    rw [dropIAC.eq_def]
    simp only [if_neg hne]
    intro hmem
    rcases List.mem_cons.mp hmem with h1 | h1
    · exact hne h1.symm
    · exact ih (hasDoubled_tail h) h1

theorem drop_take_one {d : List Nat} {e : Nat} (he : e < d.length) :
    (d.drop e).take 1 = [d.getD e 0] := by
  rw [List.drop_eq_getElem_cons he]
  rw [List.getD_eq_getElem _ _ he]
  rfl

/-- C2, counterexample.  The buffer holding exactly the two-byte command
IAC SE at end of stream: the command is dispatched (no reply for SE), but
the final unterminated line is returned after dropCR only, so the token
still contains the raw IAC byte 255. -/
theorem c2_counterexample :
    scanLines [255, 240] true 0 = ⟨2, some [255, 240], [], 2⟩ ∧ (255 : Nat) ∈ [255, 240] := by
  constructor
  · simp [scanLines, scanLoop, idxOf, idxFrom, lineWins, eotWins, idxLt, cmdLen, telnetCmds,
      handleIac, pushMsg, dropCR]
  · simp

/-- C2, amended.  Before end of stream the invariant does hold: every
token emitted by scanLines on a buffer free of doubled-IAC escapes
contains no IAC byte at all (line tokens are cleaned by dropIAC, the EOT
token is the single byte 4).  At end of stream the final unterminated
line is only CR-stripped and may retain raw IAC bytes, see the
counterexample. -/
theorem c2_amended (data : List Nat) (last : Nat) (t : List Nat)
    (hnd : hasDoubledIAC data = false)
    (ht : (scanLines data false last).token = some t) :
    (255 : Nat) ∉ t := by
  rw [scanLines_eq_loop] at ht
  rcases scanLoop_token_cases ht with ⟨n, hinl, _, rfl⟩ | ⟨e, hieot, _, rfl⟩ | ⟨hfalse, _, _⟩
  · exact noDoubled_dropIAC _ (hasDoubled_dropCR (hasDoubled_take n hnd))
  · obtain ⟨he, hg⟩ := idxOf_some_bounds hieot
    rw [drop_take_one he, hg]
    simp
  · simp at hfalse

/-- C2 witness: applying the amended theorem to a buffer that carries a
dispatched two-byte command inside a newline-terminated line. -/
theorem c2_witness :
    hasDoubledIAC [97, 255, 240, 10] = false ∧
    (scanLines [97, 255, 240, 10] false 0).token = some [97] ∧
    (255 : Nat) ∉ [97] := by
  have htok : (scanLines [97, 255, 240, 10] false 0).token = some [97] := by
    simp [scanLines, scanLoop, idxOf, idxFrom, lineWins, eotWins, idxLt, cmdLen, telnetCmds,
      handleIac, pushMsg, dropCR, dropIAC]
  exact ⟨by decide, htok, c2_amended [97, 255, 240, 10] 0 [97] (by decide) htok⟩

/-- C3, counterexample.  Feeding IAC WILL X with X the newline byte 10:
the DONT reply is sent, but the call also returns a line token (the empty
cleaned line, consuming all three bytes), because the newline inside the
dispatched sequence still wins the index comparison afterwards; this
contradicts the claim that a WILL proposal never has a line-token side
effect for every option byte. -/
theorem c3_counterexample :
    scanLines [255, 251, 10] false 0 = ⟨3, some [], [[255, 254, 10]], 0⟩ := by
  simp [scanLines, scanLoop, idxOf, idxFrom, lineWins, eotWins, idxLt, cmdLen, telnetCmds,
    handleIac, pushMsg, dropCR, dropIAC]

/-- C3, amended.  For every option byte X other than the EOT byte 4 and
the newline byte 10, the three-byte proposals are answered with exactly
one three-byte refusal on the out-of-band path and produce no token:
IAC WILL X and IAC WONT X are answered by IAC DONT X, IAC DO X and
IAC DONT X are answered by IAC WONT X. -/
theorem c3_amended (x : Nat) (h4 : x ≠ 4) (h10 : x ≠ 10) :
    scanLines [255, 251, x] false 0 = ⟨0, none, [[255, 254, x]], 3⟩ ∧
    scanLines [255, 252, x] false 0 = ⟨0, none, [[255, 254, x]], 3⟩ ∧
    scanLines [255, 253, x] false 0 = ⟨0, none, [[255, 252, x]], 3⟩ ∧
    scanLines [255, 254, x] false 0 = ⟨0, none, [[255, 252, x]], 3⟩ := by
  refine ⟨?_, ?_, ?_, ?_⟩ <;>
    simp [scanLines, scanLoop, idxOf, idxFrom, lineWins, eotWins, idxLt, cmdLen, telnetCmds,
      handleIac, pushMsg, h4, h10]

/-- C3 witness: the amended theorem applied at option byte 1. -/
theorem c3_witness :
    (1 : Nat) ≠ 4 ∧ (1 : Nat) ≠ 10 ∧
    scanLines [255, 251, 1] false 0 = ⟨0, none, [[255, 254, 1]], 3⟩ ∧
    scanLines [255, 253, 1] false 0 = ⟨0, none, [[255, 252, 1]], 3⟩ := by
  have h := c3_amended 1 (by decide) (by decide)
  exact ⟨by decide, by decide, h.1, h.2.2.1⟩

/-- C5, counterexample.  The line a CR IAC NOP LF: the cleanup order of the
source is dropIAC after dropCR, so the carriage return that is separated
from the newline only by the dispatched control sequence is not stripped
and survives into the token, which ends in the CR byte 13. -/
theorem c5_counterexample :
    scanLines [97, 13, 255, 241, 10] false 0 = ⟨5, some [97, 13], [], 0⟩ ∧
    ([97, 13] : List Nat).getLast? = some 13 := by
  constructor
  · simp [scanLines, scanLoop, idxOf, idxFrom, lineWins, eotWins, idxLt, cmdLen, telnetCmds,
      handleIac, pushMsg, dropCR, dropIAC]
  · rfl

/-- C5, amended.  When the first newline precedes the first EOT and the
first undispatched control sequence, scanLines consumes the bytes up to
and including the newline and returns the token dropIAC (dropCR prefix):
the trailing CR is stripped only when it stands immediately before the
newline (the CR strip runs before the IAC strip, so a CR separated from
the newline by a control sequence survives, see the counterexample), then
embedded control sequences are removed and doubled IAC bytes unescaped. -/
theorem c5_amended (data : List Nat) (last n : Nat)
    (h1 : idxOf data 10 = some n)
    (h2 : idxLt (some n) (idxOf data 4) = true)
    (h3 : idxLt (some n) (idxFrom data 255 last) = true) :
    scanLines data false last = ⟨n + 1, some (dropIAC (dropCR (data.take n))), [], 0⟩ := by
  rw [scanLines_eq_loop]
  have hlw : lineWins (idxOf data 10) (idxOf data 4) (idxFrom data 255 last) = some n := by
    rw [h1]
    simp [lineWins, h2, h3]
  exact scanLoop_eq_line [] rfl hlw

/-- C5 witness: the amended theorem applied to the line a CR LF, where the
CR stands immediately before the newline and is stripped. -/
theorem c5_witness :
    idxOf [97, 13, 10] 10 = some 2 ∧
    idxLt (some 2) (idxOf [97, 13, 10] 4) = true ∧
    idxLt (some 2) (idxFrom [97, 13, 10] 255 0) = true ∧
    scanLines [97, 13, 10] false 0 = ⟨3, some [97], [], 0⟩ := by
  refine ⟨by decide, by decide, by decide, ?_⟩
  rw [c5_amended [97, 13, 10] 0 2 (by decide) (by decide) (by decide)]
  decide

/-- C10.  When the first EOT precedes the first newline and the first
undispatched control sequence, scanLines returns only the single EOT byte
as the token but consumes everything up to and including the EOT, so the
text bytes buffered before the EOT on the unfinished line are discarded
and never delivered (the recv loop then closes the session on the EOT
token). -/
theorem c10_eot_discards (data : List Nat) (last e : Nat)
    (h1 : idxOf data 4 = some e)
    (h2 : idxLt (some e) (idxOf data 10) = true)
    (h3 : idxLt (some e) (idxFrom data 255 last) = true) :
    scanLines data false last = ⟨e + 1, some [4], [], 0⟩ := by
  rw [scanLines_eq_loop]
  obtain ⟨he, hg⟩ := idxOf_some_bounds h1
  have hlw : lineWins (idxOf data 10) (idxOf data 4) (idxFrom data 255 last) = none := by
    cases hn : idxOf data 10 with
    | none => simp [lineWins]
    | some m =>
      rw [hn] at h2
      simp [idxLt] at h2
      have hnm : ¬m < e := by omega
      rw [h1]
      simp [lineWins, idxLt, hnm]
  have hew : eotWins (idxOf data 4) (idxFrom data 255 last) = some e := by
    rw [h1]
    simp [eotWins, h3]
  rw [scanLoop_eq_eot [] rfl hlw hew]
  rw [drop_take_one he, hg]
  rfl

/-- C10 witness: two text bytes buffered before an EOT are skipped; the
returned token is exactly the EOT byte and three bytes are consumed. -/
theorem c10_witness :
    idxOf [97, 98, 4, 99] 4 = some 2 ∧
    idxLt (some 2) (idxOf [97, 98, 4, 99] 10) = true ∧
    idxLt (some 2) (idxFrom [97, 98, 4, 99] 255 0) = true ∧
    scanLines [97, 98, 4, 99] false 0 = ⟨3, some [4], [], 0⟩ :=
  ⟨by decide, by decide, by decide,
    c10_eot_discards [97, 98, 4, 99] 0 2 (by decide) (by decide) (by decide)⟩

/-! ### Chunk invariance of the frame scanner

The remaining development models the incremental driver (the bufio
scanner of recv together with the retained read buffer), and proves that
splitting the input stream into arbitrary chunks does not change the
emitted tokens or the out-of-band dispatches. -/

theorem idxOf_append_some {d : List Nat} {b n : Nat} (e : List Nat)
    (h : idxOf d b = some n) : idxOf (d ++ e) b = some n := by
  induction d generalizing n with
  | nil => simp [idxOf] at h
  | cons x xs ih =>
    by_cases hx : x = b
    · simp [idxOf, hx] at h ⊢
      exact h
    · simp [idxOf, hx] at h ⊢
      obtain ⟨m, hm, rfl⟩ := h
      exact ⟨m, ih hm, rfl⟩

theorem idxOf_append_none_ge {d : List Nat} {b : Nat} {e : List Nat} {q : Nat}
    (h : idxOf d b = none) (hq : idxOf (d ++ e) b = some q) : d.length ≤ q := by
  induction d generalizing q with
  | nil => simp
  | cons x xs ih =>
    by_cases hx : x = b
    · simp [idxOf, hx] at h
    · simp [idxOf, hx] at h hq
      obtain ⟨m, hm, rfl⟩ := hq
      have := ih h hm
      simp
      omega

theorem idxFrom_append_some {d : List Nat} {b k p : Nat} (e : List Nat)
    (h : idxFrom d b k = some p) : idxFrom (d ++ e) b k = some p := by
  have hk : k ≤ d.length := by
    by_contra hk
    push_neg at hk
    rw [idxFrom, List.drop_eq_nil_of_le (by omega)] at h
    simp [idxOf] at h
  rw [idxFrom, List.drop_append_of_le_length hk]
  rw [idxFrom] at h
  simp at h ⊢
  obtain ⟨m, hm, rfl⟩ := h
  exact ⟨m, idxOf_append_some e hm, rfl⟩

theorem idxFrom_append_none_ge {d : List Nat} {b k : Nat} {e : List Nat} {q : Nat}
    (h : idxFrom d b k = none) (hq : idxFrom (d ++ e) b k = some q) : d.length ≤ q := by
  by_cases hk : k ≤ d.length
  · rw [idxFrom, List.drop_append_of_le_length hk] at hq
    rw [idxFrom] at h
    simp at h hq
    obtain ⟨m, hm, rfl⟩ := hq
    have := idxOf_append_none_ge h hm
    have := d.length_drop k
    omega
  · push_neg at hk
    obtain ⟨hq1, hq2, hq3⟩ := idxFrom_some_bounds hq
    omega

/-- Prepend out-of-band messages to a scan result. -/
def ScanOut.withOob (o : List (List Nat)) (r : ScanOut) : ScanOut :=
  ⟨r.advance, r.token, o ++ r.oob, r.last⟩

@[simp] theorem withOob_advance (o : List (List Nat)) (r : ScanOut) :
    (ScanOut.withOob o r).advance = r.advance := rfl

@[simp] theorem withOob_token (o : List (List Nat)) (r : ScanOut) :
    (ScanOut.withOob o r).token = r.token := rfl

@[simp] theorem withOob_oob (o : List (List Nat)) (r : ScanOut) :
    (ScanOut.withOob o r).oob = o ++ r.oob := rfl

@[simp] theorem withOob_last (o : List (List Nat)) (r : ScanOut) :
    (ScanOut.withOob o r).last = r.last := rfl

@[simp] theorem withOob_nil (r : ScanOut) : ScanOut.withOob [] r = r := rfl

theorem withOob_withOob (a b : List (List Nat)) (r : ScanOut) :
    ScanOut.withOob a (ScanOut.withOob b r) = ScanOut.withOob (a ++ b) r := by
  simp [ScanOut.withOob]

/-- The accumulator of the scan loop only collects messages: the result
with accumulator acc is the result with empty accumulator, with the
already-collected messages prepended. -/
theorem scanLoop_acc (d : List Nat) (aE : Bool) (inl ieot : Option Nat) :
    ∀ ii acc, scanLoop d aE inl ieot ii acc =
      (scanLoop d aE inl ieot ii []).withOob acc.reverse := by
  have H : ∀ (ii : Nat) (acc : List (List Nat)) (acc2 : List (List Nat)),
      scanLoop d aE inl ieot ii acc2 = (scanLoop d aE inl ieot ii []).withOob acc2.reverse := by
    intro ii acc
    induction ii, acc using scanLoop.induct d aE inl ieot with
    | case1 ii acc p hni n hwin =>
      intro acc2
      rw [scanLoop_eq_line acc2 hni hwin, scanLoop_eq_line [] hni hwin]
      simp [ScanOut.withOob]
    | case2 ii acc p hni e hwin hlw =>
      intro acc2
      rw [scanLoop_eq_eot acc2 hni hlw hwin, scanLoop_eq_eot [] hni hlw hwin]
      simp [ScanOut.withOob]
    | case3 ii acc p hni hew hlw hs =>
      intro acc2
      rw [scanLoop_eq_short acc2 hni hlw hew hs, scanLoop_eq_short [] hni hlw hew hs]
      simp [ScanOut.withOob]
    | case4 ii acc p hni hew hlw hs hs2 =>
      intro acc2
      rw [scanLoop_eq_short2 acc2 hni hlw hew hs hs2, scanLoop_eq_short2 [] hni hlw hew hs hs2]
      simp [ScanOut.withOob]
    | case5 ii acc p hni hew hlw hs hs2 ih =>
      intro acc2
      rw [scanLoop_eq_dispatch acc2 hni hlw hew hs hs2,
        scanLoop_eq_dispatch [] hni hlw hew hs hs2]
      rw [ih, ih (pushMsg (handleIac ((d.drop p).take (cmdLen (d.getD (p + 1) 0)))) [])]
      cases handleIac ((d.drop p).take (cmdLen (d.getD (p + 1) 0))) with
      | none => simp [pushMsg]
      | some m => simp [pushMsg, withOob_withOob]
    | case6 ii acc hni n hwin =>
      intro acc2
      rw [scanLoop_eq_line acc2 hni hwin, scanLoop_eq_line [] hni hwin]
      simp [ScanOut.withOob]
    | case7 ii acc hni e hwin hlw =>
      intro acc2
      rw [scanLoop_eq_eot acc2 hni hlw hwin, scanLoop_eq_eot [] hni hlw hwin]
      simp [ScanOut.withOob]
    | case8 ii acc hni hew hlw haE =>
      intro acc2
      subst haE
      rw [scanLoop_eq_eof acc2 hni hlw hew, scanLoop_eq_eof [] hni hlw hew]
      simp [ScanOut.withOob]
    | case9 ii acc hni hew hlw haE =>
      intro acc2
      rw [Bool.not_eq_true] at haE
      subst haE
      rw [scanLoop_eq_more acc2 hni hlw hew, scanLoop_eq_more [] hni hlw hew]
      simp [ScanOut.withOob]
  intro ii acc
  exact H ii [] acc

/-- Rescanning from the stored lastiiac of a need-more-data call yields
need-more-data again, with no new dispatches and the same stored index:
the final iteration of the loop is determined by the buffer and the
stored index alone. -/
theorem scanLoop_stable (d : List Nat) (inl ieot : Option Nat) :
    ∀ (ii : Nat) (acc : List (List Nat)), (scanLoop d false inl ieot ii []).token = none →
      scanLoop d false inl ieot (scanLoop d false inl ieot ii []).last [] =
        ⟨0, none, [], (scanLoop d false inl ieot ii []).last⟩ := by
  intro ii acc
  induction ii, acc using scanLoop.induct d false inl ieot with
  | case1 ii acc p hni n hwin =>
    intro hnone
    rw [scanLoop_eq_line [] hni hwin] at hnone
    simp at hnone
  | case2 ii acc p hni e hwin hlw =>
    intro hnone
    rw [scanLoop_eq_eot [] hni hlw hwin] at hnone
    simp at hnone
  | case3 ii acc p hni hew hlw hs =>
    intro hnone
    rw [scanLoop_eq_short [] hni hlw hew hs]
    rw [scanLoop_eq_short [] hni hlw hew hs]
    rfl
  | case4 ii acc p hni hew hlw hs hs2 =>
    intro hnone
    rw [scanLoop_eq_short2 [] hni hlw hew hs hs2]
    rw [scanLoop_eq_short2 [] hni hlw hew hs hs2]
    rfl
  | case5 ii acc p hni hew hlw hs hs2 ih =>
    intro hnone
    have hacc := scanLoop_acc d false inl ieot (p + cmdLen (d.getD (p + 1) 0))
      (pushMsg (handleIac ((d.drop p).take (cmdLen (d.getD (p + 1) 0)))) [])
    rw [scanLoop_eq_dispatch [] hni hlw hew hs hs2, hacc] at hnone ⊢
    simp only [withOob_token, withOob_last] at hnone ⊢
    exact ih hnone
  | case6 ii acc hni n hwin =>
    intro hnone
    rw [scanLoop_eq_line [] hni hwin] at hnone
    simp at hnone
  | case7 ii acc hni e hwin hlw =>
    intro hnone
    rw [scanLoop_eq_eot [] hni hlw hwin] at hnone
    simp at hnone
  | case8 ii acc hni hew hlw haE =>
    simp at haE
  | case9 ii acc hni hew hlw haE =>
    intro hnone
    rw [scanLoop_eq_more [] hni hlw hew]
    rw [scanLoop_eq_more [] hni hlw hew]
    rfl

theorem scanLines_stable {buf : List Nat} {last : Nat} {a : Nat} {o : List (List Nat)} {k : Nat}
    (h : scanLines buf false last = ⟨a, none, o, k⟩) :
    scanLines buf false k = ⟨0, none, [], k⟩ := by
  rw [scanLines_eq_loop] at h
  rw [scanLines_eq_loop]
  have := scanLoop_stable buf (idxOf buf 10) (idxOf buf 4) last [] (by rw [h])
  rw [h] at this
  exact this

/-- A call that produces a token consumes at least one byte and at most
the whole buffer. -/
theorem scanLines_token_adv {buf : List Nat} {aE : Bool} {k : Nat} {t : List Nat}
    (ht : (scanLines buf aE k).token = some t) :
    1 ≤ (scanLines buf aE k).advance ∧ (scanLines buf aE k).advance ≤ buf.length := by
  by_cases hg : aE = true ∧ buf.length = 0
  · rw [scanLines, if_pos hg] at ht
    simp at ht
  · rw [scanLines, if_neg hg] at ht ⊢
    rcases scanLoop_token_cases ht with ⟨n, hinl, hadv, _⟩ | ⟨e, hieot, hadv, _⟩ | ⟨haE, hadv, _⟩
    · obtain ⟨hn, _⟩ := idxOf_some_bounds hinl
      omega
    · obtain ⟨he, _⟩ := idxOf_some_bounds hieot
      omega
    · have hlen : buf.length ≠ 0 := by
        intro h0
        exact hg ⟨haE, h0⟩
      omega

theorem scanLines_nil (aE : Bool) (k : Nat) : scanLines [] aE k = ⟨0, none, [], k⟩ := by
  cases aE with
  | true => rw [scanLines, if_pos (by simp)]
  | false =>
    rw [scanLines, if_neg (by simp)]
    have hni : idxFrom ([] : List Nat) 255 k = none := by
      simp [idxFrom, idxOf]
    exact scanLoop_eq_more [] hni rfl rfl

/-- The driver at end of stream: the bufio scanner keeps calling the split
function with atEOF set, emitting the returned tokens, until a call
produces no token (then Scan stops and any bytes still buffered are
dropped).  Returns the emitted tokens and the out-of-band messages. -/
def driveEOF (buf : List Nat) (last : Nat) : List (List Nat) × List (List Nat) :=
  match hr : scanLines buf true last with
  | ⟨adv, some t, oob, l2⟩ =>
    let rest := driveEOF (buf.drop adv) l2
    (t :: rest.1, oob ++ rest.2)
  | ⟨_, none, oob, _⟩ => ([], oob)
termination_by buf.length
decreasing_by
  have hadv := scanLines_token_adv (t := t) (by rw [hr])
  rw [hr] at hadv
  simp at hadv
  have := buf.length_drop adv
  omega

/-- The incremental driver: the bufio scanner calls the split function on
the buffered unconsumed bytes with atEOF unset; a returned token is
emitted and its bytes consumed; on need-more-data the next chunk of the
stream is appended to the buffer (carrying the lastiiac state across the
calls); when the chunks are exhausted the end-of-stream phase runs.
Returns the emitted tokens and the out-of-band messages. -/
def drive (buf : List Nat) (last : Nat) (chunks : List (List Nat)) :
    List (List Nat) × List (List Nat) :=
  match hr : scanLines buf false last with
  | ⟨adv, some t, oob, l2⟩ =>
    let rest := drive (buf.drop adv) l2 chunks
    (t :: rest.1, oob ++ rest.2)
  | ⟨_, none, oob, l2⟩ =>
    match chunks with
    | [] =>
      let rest := driveEOF buf l2
      (rest.1, oob ++ rest.2)
    | c :: cs =>
      let rest := drive (buf ++ c) l2 cs
      (rest.1, oob ++ rest.2)
termination_by (chunks.length, buf.length)
decreasing_by
  · apply Prod.Lex.right
    have hadv := scanLines_token_adv (t := t) (by rw [hr])
    rw [hr] at hadv
    simp at hadv
    have := buf.length_drop adv
    omega
  · apply Prod.Lex.left
    simp

theorem driveEOF_eq_token {buf : List Nat} {last adv : Nat} {t : List Nat}
    {oob : List (List Nat)} {l2 : Nat}
    (hr : scanLines buf true last = ⟨adv, some t, oob, l2⟩) :
    driveEOF buf last =
      (t :: (driveEOF (buf.drop adv) l2).1, oob ++ (driveEOF (buf.drop adv) l2).2) := by
  rw [driveEOF.eq_def]
  split
  · rename_i adv2 t2 oob2 l22 hr2
    rw [hr] at hr2
    simp [ScanOut.mk.injEq] at hr2
    simp_all
  · rename_i a2 oob2 l22 hr2
    rw [hr] at hr2
    simp [ScanOut.mk.injEq] at hr2

theorem driveEOF_eq_none {buf : List Nat} {last adv : Nat}
    {oob : List (List Nat)} {l2 : Nat}
    (hr : scanLines buf true last = ⟨adv, none, oob, l2⟩) :
    driveEOF buf last = ([], oob) := by
  rw [driveEOF.eq_def]
  split
  · rename_i adv2 t2 oob2 l22 hr2
    rw [hr] at hr2
    simp [ScanOut.mk.injEq] at hr2
  · rename_i a2 oob2 l22 hr2
    rw [hr] at hr2
    simp [ScanOut.mk.injEq] at hr2
    simp_all

theorem drive_eq_token {buf : List Nat} {last adv : Nat} {t : List Nat}
    {oob : List (List Nat)} {l2 : Nat} (chunks : List (List Nat))
    (hr : scanLines buf false last = ⟨adv, some t, oob, l2⟩) :
    drive buf last chunks =
      (t :: (drive (buf.drop adv) l2 chunks).1, oob ++ (drive (buf.drop adv) l2 chunks).2) := by
  rw [drive.eq_def]
  split
  · rename_i adv2 t2 oob2 l22 hr2
    rw [hr] at hr2
    simp [ScanOut.mk.injEq] at hr2
    simp_all
  · rename_i a2 oob2 l22 hr2
    rw [hr] at hr2
    simp [ScanOut.mk.injEq] at hr2

theorem drive_eq_none_nil {buf : List Nat} {last adv : Nat}
    {oob : List (List Nat)} {l2 : Nat}
    (hr : scanLines buf false last = ⟨adv, none, oob, l2⟩) :
    drive buf last [] = ((driveEOF buf l2).1, oob ++ (driveEOF buf l2).2) := by
  rw [drive.eq_def]
  split
  · rename_i adv2 t2 oob2 l22 hr2
    rw [hr] at hr2
    simp [ScanOut.mk.injEq] at hr2
  · rename_i a2 oob2 l22 hr2
    rw [hr] at hr2
    simp [ScanOut.mk.injEq] at hr2
    simp_all

theorem drive_eq_none_cons {buf : List Nat} {last adv : Nat}
    {oob : List (List Nat)} {l2 : Nat} (c : List Nat) (cs : List (List Nat))
    (hr : scanLines buf false last = ⟨adv, none, oob, l2⟩) :
    drive buf last (c :: cs) =
      ((drive (buf ++ c) l2 cs).1, oob ++ (drive (buf ++ c) l2 cs).2) := by
  rw [drive.eq_def]
  split
  · rename_i adv2 t2 oob2 l22 hr2
    rw [hr] at hr2
    simp [ScanOut.mk.injEq] at hr2
  · rename_i a2 oob2 l22 hr2
    rw [hr] at hr2
    simp [ScanOut.mk.injEq] at hr2
    simp_all

theorem idxLt_some_some (a b : Nat) : idxLt (some a) (some b) = decide (a < b) := rfl

theorem idxLt_some_none (a : Nat) : idxLt (some a) none = true := rfl

theorem idxLt_ext {d ex : List Nat} {b n : Nat} (hn : n < d.length)
    (h : idxLt (some n) (idxOf d b) = true) :
    idxLt (some n) (idxOf (d ++ ex) b) = true := by
  cases hd : idxOf d b with
  | some m =>
    rw [idxOf_append_some ex hd]
    rw [hd] at h
    exact h
  | none =>
    cases hde : idxOf (d ++ ex) b with
    | none => rfl
    | some q =>
      have := idxOf_append_none_ge hd hde
      rw [idxLt_some_some]
      simp
      omega

theorem idxLt_ext_from {d ex : List Nat} {b n k : Nat} (hn : n < d.length)
    (h : idxLt (some n) (idxFrom d b k) = true) :
    idxLt (some n) (idxFrom (d ++ ex) b k) = true := by
  cases hd : idxFrom d b k with
  | some m =>
    rw [idxFrom_append_some ex hd]
    rw [hd] at h
    exact h
  | none =>
    cases hde : idxFrom (d ++ ex) b k with
    | none => rfl
    | some q =>
      have := idxFrom_append_none_ge hd hde
      rw [idxLt_some_some]
      simp
      omega

/-- When the scan loop passes an IAC at position p without emitting (both
win conditions false), they stay false on any extension of the buffer:
every newline or EOT of the extended buffer lies strictly after p. -/
theorem wins_none_ext (d ex : List Nat) {p ii : Nat}
    (hni : idxFrom d 255 ii = some p)
    (hlw : lineWins (idxOf d 10) (idxOf d 4) (some p) = none)
    (hew : eotWins (idxOf d 4) (some p) = none) :
    lineWins (idxOf (d ++ ex) 10) (idxOf (d ++ ex) 4) (some p) = none ∧
    eotWins (idxOf (d ++ ex) 4) (some p) = none := by
  obtain ⟨hip, hp, hgp⟩ := idxFrom_some_bounds hni
  have hA : ∀ q, idxOf (d ++ ex) 4 = some q → p < q := by
    intro q hq
    cases hieot : idxOf d 4 with
    | some e0 =>
      rw [idxOf_append_some ex hieot] at hq
      cases hq
      obtain ⟨he0, hg0⟩ := idxOf_some_bounds hieot
      rw [hieot] at hew
      simp [eotWins, idxLt_some_some] at hew
      have hne : q ≠ p := by
        intro hqp
        rw [hqp, hgp] at hg0
        simp at hg0
      omega
    | none =>
      have := idxOf_append_none_ge hieot hq
      omega
  have hB : ∀ q, idxOf (d ++ ex) 10 = some q → ¬q < p := by
    intro q hq
    cases hinl : idxOf d 10 with
    | some n =>
      rw [idxOf_append_some ex hinl] at hq
      cases hq
      obtain ⟨hqn, hgn⟩ := idxOf_some_bounds hinl
      rw [hinl] at hlw
      simp [lineWins, idxLt_some_some] at hlw
      intro hqp
      have hq4 : idxLt (some q) (idxOf d 4) = false := by
        by_contra hc
        rw [Bool.not_eq_false] at hc
        exact absurd hqp (by simpa using hlw hc)
      cases hieot : idxOf d 4 with
      | none => rw [hieot] at hq4; simp [idxLt] at hq4
      | some e0 =>
        rw [hieot] at hq4
        rw [idxLt_some_some] at hq4
        simp at hq4
        obtain ⟨he0, hg0⟩ := idxOf_some_bounds hieot
        have hne : e0 ≠ q := by
          intro hh
          rw [hh, hgn] at hg0
          simp at hg0
        rw [hieot] at hew
        simp [eotWins, idxLt_some_some] at hew
        have hne2 : e0 ≠ p := by
          intro hh
          rw [hh, hgp] at hg0
          simp at hg0
        omega
    | none =>
      have := idxOf_append_none_ge hinl hq
      omega
  constructor
  · cases hq : idxOf (d ++ ex) 10 with
    | none => rfl
    | some q =>
      have := hB q hq
      simp [lineWins, idxLt_some_some]
      intro h1
      omega
  · cases hq : idxOf (d ++ ex) 4 with
    | none => rfl
    | some q =>
      have := hA q hq
      simp [eotWins, idxLt_some_some]
      omega

theorem lineWins_some_elim {inl ieot ni : Option Nat} {n : Nat}
    (h : lineWins inl ieot ni = some n) :
    inl = some n ∧ idxLt (some n) ieot = true ∧ idxLt (some n) ni = true := by
  cases inl with
  | none => simp [lineWins] at h
  | some m =>
    by_cases hc : (idxLt (some m) ieot && idxLt (some m) ni) = true
    · simp [lineWins, hc] at h
      subst h
      rw [Bool.and_eq_true] at hc
      exact ⟨rfl, hc.1, hc.2⟩
    · simp [lineWins, hc] at h

theorem eotWins_some_elim {ieot ni : Option Nat} {e : Nat}
    (h : eotWins ieot ni = some e) :
    ieot = some e ∧ idxLt (some e) ni = true := by
  cases ieot with
  | none => simp [eotWins] at h
  | some m =>
    by_cases hc : idxLt (some m) ni = true
    · simp [eotWins, hc] at h
      subst h
      exact ⟨rfl, hc⟩
    · simp [eotWins, hc] at h

/-- Extension property of one scan call: when the call on the buffer d
emits a token, the call on any extended buffer d ++ ex (same carried
index) emits the identical result; when the call on d needs more data,
the call on d ++ ex first emits exactly the messages dispatched on d and
then behaves like a fresh call starting at the stored index. -/
theorem scanLoop_ext (d ex : List Nat) :
    ∀ (ii : Nat) (acc : List (List Nat)),
      (∀ t, (scanLoop d false (idxOf d 10) (idxOf d 4) ii []).token = some t →
        scanLoop (d ++ ex) false (idxOf (d ++ ex) 10) (idxOf (d ++ ex) 4) ii [] =
          scanLoop d false (idxOf d 10) (idxOf d 4) ii []) ∧
      ((scanLoop d false (idxOf d 10) (idxOf d 4) ii []).token = none →
        scanLoop (d ++ ex) false (idxOf (d ++ ex) 10) (idxOf (d ++ ex) 4) ii [] =
          ((scanLoop (d ++ ex) false (idxOf (d ++ ex) 10) (idxOf (d ++ ex) 4)
              (scanLoop d false (idxOf d 10) (idxOf d 4) ii []).last []).withOob
            (scanLoop d false (idxOf d 10) (idxOf d 4) ii []).oob)) := by
  intro ii0 acc0
  induction ii0, acc0 using scanLoop.induct d false (idxOf d 10) (idxOf d 4) with
  | case1 ii acc p hni n hwin =>
    obtain ⟨hinl, hc2, hc3⟩ := lineWins_some_elim hwin
    obtain ⟨hn, _⟩ := idxOf_some_bounds hinl
    have hlwE : lineWins (idxOf (d ++ ex) 10) (idxOf (d ++ ex) 4)
        (idxFrom (d ++ ex) 255 ii) = some n := by
      rw [idxOf_append_some ex hinl]
      have hE2 : idxLt (some n) (idxOf (d ++ ex) 4) = true := idxLt_ext hn hc2
      have hE3 : idxLt (some n) (idxFrom (d ++ ex) 255 ii) = true := by
        rw [idxFrom_append_some ex hni]
        exact hc3
      simp [lineWins, hE2, hE3]
    have hD := scanLoop_eq_line (a := false) [] hni hwin
    have hE := scanLoop_eq_line (a := false) [] rfl hlwE
    rw [List.take_append_of_le_length (Nat.le_of_lt hn)] at hE
    constructor
    · intro t ht
      rw [hD, hE]
    · intro ht
      rw [hD] at ht
      simp at ht
  | case2 ii acc p hni e0 hwin hlw =>
    obtain ⟨hieot, hc3⟩ := eotWins_some_elim hwin
    obtain ⟨he0, hge0⟩ := idxOf_some_bounds hieot
    have hewE : eotWins (idxOf (d ++ ex) 4) (idxFrom (d ++ ex) 255 ii) = some e0 := by
      rw [idxOf_append_some ex hieot]
      have hE3 : idxLt (some e0) (idxFrom (d ++ ex) 255 ii) = true := by
        rw [idxFrom_append_some ex hni]
        exact hc3
      simp [eotWins, hE3]
    have hlwE : lineWins (idxOf (d ++ ex) 10) (idxOf (d ++ ex) 4)
        (idxFrom (d ++ ex) 255 ii) = none := by
      rw [idxOf_append_some ex hieot, idxFrom_append_some ex hni]
      cases hinl : idxOf d 10 with
      | none =>
        cases hq : idxOf (d ++ ex) 10 with
        | none => rfl
        | some q =>
          have hge := idxOf_append_none_ge hinl hq
          simp [lineWins, idxLt_some_some]
          intro hcon
          omega
      | some n =>
        rw [idxOf_append_some ex hinl]
        rw [hinl, hieot] at hlw
        exact hlw
    have hD := scanLoop_eq_eot (a := false) [] hni hlw hwin
    have hE := scanLoop_eq_eot (a := false) [] rfl hlwE hewE
    rw [List.drop_append_of_le_length (Nat.le_of_lt he0)] at hE
    have hdl : 1 ≤ (d.drop e0).length := by
      rw [List.length_drop]
      omega
    rw [List.take_append_of_le_length hdl] at hE
    constructor
    · intro t ht
      rw [hD, hE]
    · intro ht
      rw [hD] at ht
      simp at ht
  | case3 ii acc p hni hew hlw hs =>
    have hD := scanLoop_eq_short (a := false) [] hni hlw hew hs
    constructor
    · intro t ht
      rw [hD] at ht
      simp at ht
    · intro ht
      rw [hD]
      simp
  | case4 ii acc p hni hew hlw hs hs2 =>
    have hD := scanLoop_eq_short2 (a := false) [] hni hlw hew hs hs2
    constructor
    · intro t ht
      rw [hD] at ht
      simp at ht
    · intro ht
      rw [hD]
      simp
  | case5 ii acc p hni hew hlw hs hs2 ih =>
    obtain ⟨hip, hp, hgp⟩ := idxFrom_some_bounds hni
    have hgd : (d ++ ex).getD (p + 1) 0 = d.getD (p + 1) 0 :=
      List.getD_append _ _ _ _ (by omega)
    have hniE : idxFrom (d ++ ex) 255 ii = some p := idxFrom_append_some ex hni
    obtain ⟨hlwE, hewE⟩ := wins_none_ext d ex hni hlw hew
    have hsE : ¬(d ++ ex).length < p + 2 := by
      rw [List.length_append]
      omega
    have hs2E : ¬(d ++ ex).length < p + cmdLen ((d ++ ex).getD (p + 1) 0) := by
      rw [List.length_append, hgd]
      omega
    have hmsg : ((d ++ ex).drop p).take (cmdLen (d.getD (p + 1) 0)) =
        (d.drop p).take (cmdLen (d.getD (p + 1) 0)) := by
      rw [List.drop_append_of_le_length (Nat.le_of_lt hp)]
      apply List.take_append_of_le_length
      rw [List.length_drop]
      omega
    have hD := scanLoop_eq_dispatch (a := false) [] hni hlw hew hs hs2
    have hE := scanLoop_eq_dispatch (a := false) [] hniE hlwE hewE hsE hs2E
    rw [hgd, hmsg] at hE
    have haccD := scanLoop_acc d false (idxOf d 10) (idxOf d 4)
      (p + cmdLen (d.getD (p + 1) 0))
      (pushMsg (handleIac ((d.drop p).take (cmdLen (d.getD (p + 1) 0)))) [])
    have haccE := scanLoop_acc (d ++ ex) false (idxOf (d ++ ex) 10) (idxOf (d ++ ex) 4)
      (p + cmdLen (d.getD (p + 1) 0))
      (pushMsg (handleIac ((d.drop p).take (cmdLen (d.getD (p + 1) 0)))) [])
    rw [haccD] at hD
    rw [haccE] at hE
    cases htok2 : (scanLoop d false (idxOf d 10) (idxOf d 4)
        (p + cmdLen (d.getD (p + 1) 0)) []).token with
    | some t2 =>
      have hIH := ih.1 t2 htok2
      constructor
      · intro t ht
        rw [hD, hE, hIH]
      · intro ht
        rw [hD, withOob_token, htok2] at ht
        exact Option.noConfusion ht
    | none =>
      have hIH := ih.2 htok2
      constructor
      · intro t ht
        rw [hD, withOob_token, htok2] at ht
        exact Option.noConfusion ht
      · intro ht
        rw [hD, hE, hIH]
        rw [withOob_withOob]
        simp
  | case6 ii acc hni n hwin =>
    obtain ⟨hinl, hc2, _⟩ := lineWins_some_elim hwin
    obtain ⟨hn, _⟩ := idxOf_some_bounds hinl
    have hlwE : lineWins (idxOf (d ++ ex) 10) (idxOf (d ++ ex) 4)
        (idxFrom (d ++ ex) 255 ii) = some n := by
      rw [idxOf_append_some ex hinl]
      have hE2 : idxLt (some n) (idxOf (d ++ ex) 4) = true := idxLt_ext hn hc2
      have hE3 : idxLt (some n) (idxFrom (d ++ ex) 255 ii) = true := by
        cases hq : idxFrom (d ++ ex) 255 ii with
        | none => rfl
        | some q =>
          have := idxFrom_append_none_ge hni hq
          rw [idxLt_some_some]
          simp
          omega
      simp [lineWins, hE2, hE3]
    have hD := scanLoop_eq_line (a := false) [] hni hwin
    have hE := scanLoop_eq_line (a := false) [] rfl hlwE
    rw [List.take_append_of_le_length (Nat.le_of_lt hn)] at hE
    constructor
    · intro t ht
      rw [hD, hE]
    · intro ht
      rw [hD] at ht
      simp at ht
  | case7 ii acc hni e0 hwin hlw =>
    obtain ⟨hieot, _⟩ := eotWins_some_elim hwin
    obtain ⟨he0, hge0⟩ := idxOf_some_bounds hieot
    have hewE : eotWins (idxOf (d ++ ex) 4) (idxFrom (d ++ ex) 255 ii) = some e0 := by
      rw [idxOf_append_some ex hieot]
      have hE3 : idxLt (some e0) (idxFrom (d ++ ex) 255 ii) = true := by
        cases hq : idxFrom (d ++ ex) 255 ii with
        | none => rfl
        | some q =>
          have := idxFrom_append_none_ge hni hq
          rw [idxLt_some_some]
          simp
          omega
      simp [eotWins, hE3]
    have hlwE : lineWins (idxOf (d ++ ex) 10) (idxOf (d ++ ex) 4)
        (idxFrom (d ++ ex) 255 ii) = none := by
      rw [idxOf_append_some ex hieot]
      cases hinl : idxOf d 10 with
      | none =>
        cases hq : idxOf (d ++ ex) 10 with
        | none => rfl
        | some q =>
          have hge := idxOf_append_none_ge hinl hq
          simp [lineWins, idxLt_some_some]
          intro hcon
          omega
      | some n =>
        rw [idxOf_append_some ex hinl]
        rw [hinl, hieot] at hlw
        have hnen : ¬n < e0 := by
          intro hcon
          simp [lineWins, idxLt_some_some, idxLt_some_none, hcon] at hlw
        simp [lineWins, idxLt_some_some, hnen]
    have hD := scanLoop_eq_eot (a := false) [] hni hlw hwin
    have hE := scanLoop_eq_eot (a := false) [] rfl hlwE hewE
    rw [List.drop_append_of_le_length (Nat.le_of_lt he0)] at hE
    have hdl : 1 ≤ (d.drop e0).length := by
      rw [List.length_drop]
      omega
    rw [List.take_append_of_le_length hdl] at hE
    constructor
    · intro t ht
      rw [hD, hE]
    · intro ht
      rw [hD] at ht
      simp at ht
  | case8 ii acc hni hew hlw haE =>
    simp at haE
  | case9 ii acc hni hew hlw haE =>
    have hD := scanLoop_eq_more [] hni hlw hew
    constructor
    · intro t ht
      rw [hD] at ht
      simp at ht
    · intro ht
      rw [hD]
      simp

theorem scanLines_ext_token {d e : List Nat} {ii : Nat} {t : List Nat}
    (ht : (scanLines d false ii).token = some t) :
    scanLines (d ++ e) false ii = scanLines d false ii := by
  rw [scanLines_eq_loop] at ht
  rw [scanLines_eq_loop, scanLines_eq_loop]
  exact (scanLoop_ext d e ii []).1 t ht

theorem scanLines_ext_none {d e : List Nat} {ii : Nat}
    (ht : (scanLines d false ii).token = none) :
    scanLines (d ++ e) false ii =
      (scanLines (d ++ e) false (scanLines d false ii).last).withOob
        (scanLines d false ii).oob := by
  rw [scanLines_eq_loop] at ht
  simp only [scanLines_eq_loop]
  exact (scanLoop_ext d e ii []).2 ht

/-- Starting the EOF-free driver from a stored index whose scan result is
the scan result from another index with messages prepended: the driver
emits the same tokens and the prepended messages first. -/
theorem drive_prepend {X : List Nat} {k k2 : Nat} {o : List (List Nat)}
    (h : scanLines X false k = (scanLines X false k2).withOob o) :
    drive X k [] = ((drive X k2 []).1, o ++ (drive X k2 []).2) := by
  rcases hr2 : scanLines X false k2 with ⟨adv, tok, oob2, l2⟩
  rw [hr2] at h
  cases tok with
  | some t =>
    have h2 : scanLines X false k = ⟨adv, some t, o ++ oob2, l2⟩ := h
    rw [drive_eq_token [] h2, drive_eq_token [] hr2]
    simp [List.append_assoc]
  | none =>
    have h2 : scanLines X false k = ⟨adv, none, o ++ oob2, l2⟩ := h
    rw [drive_eq_none_nil h2, drive_eq_none_nil hr2]
    simp [List.append_assoc]

/-- Handing the driver its final chunk is the same as having that chunk
already appended to the buffer. -/
theorem drive_single (j : List Nat) :
    ∀ (N : Nat) (B : List Nat) (k : Nat), B.length ≤ N →
      drive B k [j] = drive (B ++ j) k [] := by
  intro N
  induction N with
  | zero =>
    intro B k hlen
    have hB : B = [] := List.length_eq_zero.mp (Nat.le_zero.mp hlen)
    subst hB
    rw [drive_eq_none_cons j [] (scanLines_nil false k)]
    simp
  | succ N ih =>
    intro B k hlen
    rcases hr : scanLines B false k with ⟨adv, tok, oob, l2⟩
    cases tok with
    | some t =>
      have htok : (scanLines B false k).token = some t := by rw [hr]
      have hadv := scanLines_token_adv htok
      rw [hr] at hadv
      simp at hadv
      have hext := scanLines_ext_token (e := j) htok
      rw [hr] at hext
      rw [drive_eq_token [j] hr, drive_eq_token [] hext]
      rw [List.drop_append_of_le_length hadv.2]
      rw [ih (B.drop adv) l2 (by rw [List.length_drop]; omega)]
    | none =>
      have htok : (scanLines B false k).token = none := by rw [hr]
      have hext := scanLines_ext_none (e := j) htok
      rw [hr] at hext
      dsimp only at hext
      rw [drive_eq_none_cons j [] hr]
      rw [drive_prepend hext]

/-- Splitting the stream into chunks does not change the driver output:
processing a chunk list equals processing the single chunk holding the
whole remaining stream. -/
theorem drive_flatten :
    ∀ (cs : List (List Nat)) (buf : List Nat) (k : Nat),
      drive buf k cs = drive buf k [cs.flatten] := by
  intro cs
  induction cs with
  | nil =>
    have H : ∀ (N : Nat) (buf : List Nat) (k : Nat), buf.length ≤ N →
        drive buf k [] = drive buf k [[]] := by
      intro N
      induction N with
      | zero =>
        intro buf k hlen
        have hB : buf = [] := List.length_eq_zero.mp (Nat.le_zero.mp hlen)
        subst hB
        rw [drive_eq_none_nil (scanLines_nil false k), drive_eq_none_cons [] [] (scanLines_nil false k)]
        rw [List.append_nil]
        rw [drive_eq_none_nil (scanLines_nil false k)]
        simp
      | succ N ih =>
        intro buf k hlen
        rcases hr : scanLines buf false k with ⟨adv, tok, oob, l2⟩
        cases tok with
        | some t =>
          have htok : (scanLines buf false k).token = some t := by rw [hr]
          have hadv := scanLines_token_adv htok
          rw [hr] at hadv
          simp at hadv
          rw [drive_eq_token [] hr, drive_eq_token [[]] hr]
          rw [ih (buf.drop adv) l2 (by rw [List.length_drop]; omega)]
        | none =>
          rw [drive_eq_none_nil hr, drive_eq_none_cons [] [] hr]
          rw [List.append_nil]
          rw [drive_eq_none_nil (scanLines_stable hr)]
          simp
    intro buf k
    rw [List.flatten_nil]
    exact H buf.length buf k (Nat.le_refl _)
  | cons c cs ihcs =>
    have H : ∀ (N : Nat) (buf : List Nat) (k : Nat), buf.length ≤ N →
        drive buf k (c :: cs) = drive buf k [c ++ cs.flatten] := by
      intro N
      induction N with
      | zero =>
        intro buf k hlen
        have hB : buf = [] := List.length_eq_zero.mp (Nat.le_zero.mp hlen)
        subst hB
        rw [drive_eq_none_cons c cs (scanLines_nil false k)]
        rw [drive_eq_none_cons (c ++ cs.flatten) [] (scanLines_nil false k)]
        rw [List.nil_append, List.nil_append]
        rw [ihcs c k]
        rw [drive_single cs.flatten c.length c k (Nat.le_refl _)]
        simp
      | succ N ih =>
        intro buf k hlen
        rcases hr : scanLines buf false k with ⟨adv, tok, oob, l2⟩
        cases tok with
        | some t =>
          have htok : (scanLines buf false k).token = some t := by rw [hr]
          have hadv := scanLines_token_adv htok
          rw [hr] at hadv
          simp at hadv
          rw [drive_eq_token (c :: cs) hr, drive_eq_token [c ++ cs.flatten] hr]
          rw [ih (buf.drop adv) l2 (by rw [List.length_drop]; omega)]
        | none =>
          rw [drive_eq_none_cons c cs hr, drive_eq_none_cons (c ++ cs.flatten) [] hr]
          rw [ihcs (buf ++ c) l2]
          rw [drive_single cs.flatten (buf ++ c).length (buf ++ c) l2 (Nat.le_refl _)]
          rw [List.append_assoc]
    intro buf k
    rw [List.flatten_cons]
    exact H buf.length buf k (Nat.le_refl _)

/-- C1.  Chunk invariance of the frame scanner: driving scanLines
incrementally over any splitting of the byte stream into chunks (tokens
consumed as they are produced, the lastiiac index carried across calls,
need-more-data answered by appending the next chunk, and the end-of-stream
phase at the end) yields the same sequence of line and interrupt tokens
and the same out-of-band dispatches as feeding the whole stream in one
piece.  The driver starts, as newClient does, with an empty buffer and
lastiiac zero. -/
theorem c1_chunk_invariance (chunks : List (List Nat)) :
    drive [] 0 chunks = drive [] 0 [chunks.flatten] :=
  drive_flatten chunks [] 0

end Telgo
